import Mathlib

/-!
Verification of the `lol` S-expression language pipeline (lexer, parser,
visualizer, evaluator, partial evaluator) against its specification.

The embedding follows the Rust sources:
* `src/parser.rs`: `tokenize`, the typed AST (`Expression` = `LInt` ∪ `LVar`),
  `parse`, the `Display` impls (`visualize`), and `Eval`.
* `src/main.rs`: the untyped `Call`-based AST together with
  `partially_evaluate` and `interpret`.

Rust `i32` values are modeled as `Int`; the one place where `i32`'s finite
range is observable independently of build mode — `number.parse().unwrap()`
in `tokenize`, which panics when a digit run exceeds `i32::MAX` — is modeled
explicitly.  Panics are modeled as `none`; console I/O (`read`) has no pure
denotation and is likewise modeled as `none` (every theorem that touches it
assumes or establishes absence of `read`).
-/

namespace Lol

/-- Tokens, from `src/parser.rs` (`enum Token`).  `Number` carries `Int`
(for Rust's `i32`); the lexer only ever produces values in `[0, 2147483647]`. -/
inductive Token where
  | Identifier (s : String)
  | Number (n : Int)
  | LParen
  | RParen
  | EndOfFile
deriving DecidableEq, Repr

/-- Digit test from `tokenize`'s `'0'..='9'` pattern. -/
def isDigitC (c : Char) : Bool := '0' ≤ c && c ≤ '9'

/-- Identifier-character test from `tokenize`'s
`'a'..='z' | 'A'..='Z' | '+' | '-' | '*' | '/'` pattern. -/
def isIdentC (c : Char) : Bool :=
  ('a' ≤ c && c ≤ 'z') || ('A' ≤ c && c ≤ 'Z') ||
  c = '+' || c = '-' || c = '*' || c = '/'

/-- Numeric value of a digit run (Rust's `number.parse()` on a run of
decimal digits). -/
def digitsToNat (ds : List Char) : Nat :=
  ds.foldl (fun acc c => acc * 10 + (c.toNat - '0'.toNat)) 0

/-- Rust's `i32::MAX`: a digit run parsing above this makes
`number.parse::<i32>().unwrap()` panic. -/
def i32Max : Nat := 2147483647

/-- The body of `tokenize`'s `while let` loop, from `src/parser.rs`.
`fuel` only bounds the recursion (each step consumes at least one
character, so `length + 1` always suffices); `none` arises from fuel
exhaustion or from the `parse().unwrap()` panic on an oversized digit run. -/
def tokenizeAux : Nat → List Char → Option (List Token)
  | 0, _ => none
  | _ + 1, [] => some []
  | fuel + 1, c :: cs =>
    if isDigitC c then
      let ds := c :: cs.takeWhile isDigitC
      let n := digitsToNat ds
      if n ≤ i32Max then
        (tokenizeAux fuel (cs.dropWhile isDigitC)).map (Token.Number (n : Int) :: ·)
      else
        none
    else if isIdentC c then
      let run := c :: cs.takeWhile isIdentC
      (tokenizeAux fuel (cs.dropWhile isIdentC)).map (Token.Identifier ⟨run⟩ :: ·)
    else if c = '(' then
      (tokenizeAux fuel cs).map (Token.LParen :: ·)
    else if c = ')' then
      (tokenizeAux fuel cs).map (Token.RParen :: ·)
    else
      tokenizeAux fuel cs

/-- `tokenize` from `src/parser.rs`: lex the whole string, then append the
`EndOfFile` sentinel. -/
def tokenize (s : String) : Option (List Token) :=
  (tokenizeAux (s.data.length + 1) s.data).map (· ++ [Token.EndOfFile])

/-- The `Call`-based expression type that `src/main.rs` pattern-matches on
(`Expression::Number(n)` and `Expression::Call(id, args)`); the enum
declaration itself is not in `src`, so its shape is reconstructed from
`main.rs`'s patterns and spec §3. -/
inductive UExp where
  | Number (n : Int)
  | Call (id : String) (args : List UExp)
deriving Repr

/-- Structural induction principle for `UExp` giving the hypothesis on every
member of a call's argument list. -/
def UExp.inductionOn (P : UExp → Prop) (hnum : ∀ n, P (UExp.Number n))
    (hcall : ∀ id args, (∀ a, a ∈ args → P a) → P (UExp.Call id args)) :
    ∀ e, P e
  | UExp.Number n => hnum n
  | UExp.Call id args =>
      hcall id args (fun a _ => UExp.inductionOn P hnum hcall a)
termination_by e => sizeOf e
decreasing_by
  rename_i ha
  have h1 := List.sizeOf_lt_of_mem ha
  simp only [UExp.Call.sizeOf_spec]
  omega

mutual

/-- `partially_evaluate` from `src/main.rs`.  `none` models the
`args[0]` index panic that a `-` call with an empty argument list causes. -/
def partiallyEvaluate : UExp → Option UExp
  | .Number n => some (.Number n)
  | .Call id args =>
    if id = "+" then
      match peLoop args 0 [] with
      | none => none
      | some (sum, newArgs) =>
        if newArgs.isEmpty then some (.Number sum)
        else some (.Call "+" (.Number sum :: newArgs))
    else if id = "-" then
      match args with
      | [] => none
      | a0 :: subtrahends =>
        match partiallyEvaluate a0 with
        | none => none
        | some minuend =>
          match peLoop subtrahends 0 [] with
          | none => none
          | some (sum, newArgs) =>
            match minuend with
            | .Number n =>
              if newArgs.isEmpty then some (.Number (n - sum))
              else some (.Call "-" (.Number (n - sum) :: newArgs))
            | .Call id2 args2 =>
              some (.Call "-" (.Call id2 args2 :: (newArgs ++ [.Number sum])))
    else if id = "read" then
      some (.Call id args)
    else
      some (.Call id args)
termination_by e => sizeOf e
decreasing_by
  all_goals simp_wf
  all_goals omega

/-- The argument loop shared by `partially_evaluate`'s `+` and `-` arms:
partially evaluate each argument in order, accumulating `Number` results
into `sum` and pushing `Call` results onto `acc` (Rust's `new_args`). -/
def peLoop : List UExp → Int → List UExp → Option (Int × List UExp)
  | [], sum, acc => some (sum, acc)
  | a :: rest, sum, acc =>
    match partiallyEvaluate a with
    | none => none
    | some (.Number n) => peLoop rest (sum + n) acc
    | some (.Call id2 args2) => peLoop rest sum (acc ++ [.Call id2 args2])
termination_by l _ _ => sizeOf l
decreasing_by
  all_goals simp_wf
  all_goals omega

end

mutual

/-- `interpret` from `src/main.rs`.  The `read` arm performs console I/O
and so has no pure denotation; it is modeled as `none`, and every theorem
about `interpret` assumes the expression contains no `read`.  The `-` arm's
`args[0]` index panic on an empty argument list is also `none`.  An
unrecognized operator returns the placeholder `0` without evaluating its
arguments, exactly as the catch-all arm does. -/
def interpret : UExp → Option Int
  | .Number n => some n
  | .Call id args =>
    if id = "+" then interpSum args 0
    else if id = "-" then
      match args with
      | [] => none
      | a0 :: rest =>
        match interpret a0 with
        | none => none
        | some m => interpSub rest m
    else if id = "read" then none
    else some 0
termination_by e => sizeOf e
decreasing_by
  all_goals simp_wf
  all_goals omega

/-- The `+` arm's loop: `sum += interpret(arg)` over the arguments. -/
def interpSum : List UExp → Int → Option Int
  | [], sum => some sum
  | a :: rest, sum =>
    match interpret a with
    | none => none
    | some n => interpSum rest (sum + n)
termination_by l _ => sizeOf l
decreasing_by
  all_goals simp_wf
  all_goals omega

/-- The `-` arm's loop: `sum -= interpret(arg)` over `args[1..]`. -/
def interpSub : List UExp → Int → Option Int
  | [], sum => some sum
  | a :: rest, sum =>
    match interpret a with
    | none => none
    | some n => interpSub rest (sum - n)
termination_by l _ => sizeOf l
decreasing_by
  all_goals simp_wf
  all_goals omega

end

mutual

/-- `enum LInt` from `src/parser.rs`. -/
inductive LInt where
  | Number (n : Int)
  | Add (a : Expression) (b : Expression)
  | Subtract (a : Expression) (b : Expression)
  | Read
deriving Repr

/-- `enum LVar` from `src/parser.rs`. -/
inductive LVar where
  | Let (bindings : List Binding) (body : Expression)
  | Var (name : String)
deriving Repr

/-- `struct Binding` from `src/parser.rs`. -/
inductive Binding where
  | mk (name : String) (value : Expression)
deriving Repr

/-- `enum Expression` from `src/parser.rs` (the typed AST). -/
inductive Expression where
  | LInt (l : LInt)
  | LVar (l : LVar)
deriving Repr

end

/-- The `name` field of `struct Binding`. -/
def Binding.name : Binding → String
  | .mk n _ => n

/-- The `value` field of `struct Binding`. -/
def Binding.value : Binding → Expression
  | .mk _ v => v

mutual

/-- `parse_expression` from `src/parser.rs`, with the `Peekable` iterator
modeled as the list of remaining tokens and each panic (failed `assert!`,
`unwrap` on an exhausted iterator, out-of-bounds `args[_]` index,
`panic!`) modeled as `none`.  `fuel` only bounds the recursion depth;
`parse` supplies more than enough.  Faithful quirks preserved: the `let`
branch never consumes the let-form's closing `)` (the `return` at line 137
skips it), `+`/`-` take `args[0]`/`args[1]` and silently drop any further
arguments, and `read` ignores its arguments entirely. -/
def parseExpression : Nat → List Token → Option (Expression × List Token)
  | 0, _ => none
  | _ + 1, Token.Number n :: rest => some (.LInt (.Number n), rest)
  | _ + 1, Token.Identifier id :: rest => some (.LVar (.Var id), rest)
  | fuel + 1, Token.LParen :: rest =>
    match rest with
    | [] => none
    | tok :: rest2 =>
      if tok = Token.Identifier "let" then
        match rest2 with
        | Token.LParen :: rest3 =>
          match parseBindings fuel rest3 with
          | none => none
          | some (bindings, rest4) =>
            match rest4 with
            | Token.RParen :: rest5 =>
              match parseExpression fuel rest5 with
              | none => none
              | some (body, rest6) =>
                some (.LVar (.Let bindings body), rest6)
            | _ => none
        | _ => none
      else
        match parseArgs fuel rest2 with
        | none => none
        | some (args, rest3) =>
          match tok with
          | Token.Identifier id =>
            if id = "+" then
              match args with
              | a :: b :: _ => some (.LInt (.Add a b), rest3)
              | _ => none
            else if id = "-" then
              match args with
              | a :: b :: _ => some (.LInt (.Subtract a b), rest3)
              | _ => none
            else if id = "read" then
              some (.LInt .Read, rest3)
            else none
          | _ => none
  | _ + 1, _ => none

/-- The binding loop of `parse_expression`'s `let` branch: repeat
`( IDENT expr )` until the next token is `)`, which is left for the caller
to consume. -/
def parseBindings : Nat → List Token → Option (List Binding × List Token)
  | 0, _ => none
  | _ + 1, Token.RParen :: rest => some ([], Token.RParen :: rest)
  | fuel + 1, Token.LParen :: Token.Identifier name :: rest2 =>
    match parseExpression fuel rest2 with
    | none => none
    | some (value, rest3) =>
      match rest3 with
      | Token.RParen :: rest4 =>
        match parseBindings fuel rest4 with
        | none => none
        | some (bs, rest5) => some (.mk name value :: bs, rest5)
      | _ => none
  | _ + 1, Token.LParen :: _ => none
  | _ + 1, _ => none

/-- The argument loop of `parse_expression`: parse expressions until the
next token is `)`, then consume the `)`. -/
def parseArgs : Nat → List Token → Option (List Expression × List Token)
  | 0, _ => none
  | _ + 1, Token.RParen :: rest => some ([], rest)
  | fuel + 1, ts =>
    match parseExpression fuel ts with
    | none => none
    | some (e, rest) =>
      match parseArgs fuel rest with
      | none => none
      | some (args, rest2) => some (e :: args, rest2)

end

/-- `parse` from `src/parser.rs`: parse one expression off the front of the
token sequence, discarding any leftover tokens.  The fuel bound exceeds the
deepest possible recursion on the given tokens. -/
def parse (ts : List Token) : Option Expression :=
  (parseExpression (2 * ts.length + 4) ts).map (·.1)

/-- Composition of the lexer and parser on a source string. -/
def parseStr (s : String) : Option Expression :=
  (tokenize s).bind parse

mutual

/-- The visualizer: `impl Display for Expression` from `src/parser.rs`
(`main.rs`'s `visualize` prints exactly this rendering). -/
def visualizeExpr : Expression → String
  | .LInt l => visualizeLInt l
  | .LVar l => visualizeLVar l
termination_by e => sizeOf e

/-- `impl Display for LInt` from `src/parser.rs`. -/
def visualizeLInt : LInt → String
  | .Number n => toString n
  | .Add a b => "(+ " ++ visualizeExpr a ++ " " ++ visualizeExpr b ++ ")"
  | .Subtract a b => "(- " ++ visualizeExpr a ++ " " ++ visualizeExpr b ++ ")"
  | .Read => "(read)"
termination_by l => sizeOf l

/-- `impl Display for LVar` from `src/parser.rs`; bindings are printed
back-to-back with no separator, each as `(name value)`. -/
def visualizeLVar : LVar → String
  | .Let bs body => "(let (" ++ visualizeBindings bs ++ ") " ++ visualizeExpr body ++ ")"
  | .Var name => name
termination_by l => sizeOf l

/-- The binding loop of `LVar`'s `Display` impl. -/
def visualizeBindings : List Binding → String
  | [] => ""
  | .mk name value :: rest =>
    "(" ++ name ++ " " ++ visualizeExpr value ++ ")" ++ visualizeBindings rest
termination_by bs => sizeOf bs

end

mutual

/-- Computable node count for `Expression`, used only to pick a fuel bound
for `evaluate`. -/
def Expression.size : Expression → Nat
  | .LInt l => l.size + 1
  | .LVar l => l.size + 1
termination_by e => sizeOf e

/-- Computable node count for `LInt`. -/
def LInt.size : LInt → Nat
  | .Number _ => 1
  | .Add a b => a.size + b.size + 1
  | .Subtract a b => a.size + b.size + 1
  | .Read => 1
termination_by l => sizeOf l

/-- Computable node count for `LVar`. -/
def LVar.size : LVar → Nat
  | .Let bs body => bindingsSize bs + body.size + 1
  | .Var _ => 1
termination_by l => sizeOf l

/-- Computable node count for a binding list. -/
def bindingsSize : List Binding → Nat
  | [] => 1
  | .mk _ v :: rest => v.size + bindingsSize rest + 1
termination_by bs => sizeOf bs

end

/-- The mutable `Environment` (`pub type Env = HashMap<String, i32>`),
modeled by its lookup behavior: insertion prepends and `lookup` finds the
most recent pair, so rebinding observably overwrites. -/
abbrev Env := List (String × Int)

mutual

/-- `impl Eval for Expression` from `src/parser.rs`.  The environment is
mutated in place in Rust, so it is threaded through and returned here.
`fuel` only bounds recursion depth (`evaluate` supplies more than enough);
all universal theorems hold for every fuel. -/
def evalExpr : Nat → Expression → Env → Option (Int × Env)
  | 0, _, _ => none
  | fuel + 1, .LInt l, env => evalLInt fuel l env
  | fuel + 1, .LVar l, env => evalLVar fuel l env

/-- `impl Eval for LInt` from `src/parser.rs`.  `Add`/`Subtract` evaluate
the left operand first, with the same (threaded) environment.  `Read`
performs console I/O and has no pure denotation; it is modeled as `none`,
and theorems touching evaluation avoid `read`. -/
def evalLInt : Nat → LInt → Env → Option (Int × Env)
  | _, .Number n, env => some (n, env)
  | fuel, .Add a b, env =>
    match evalExpr fuel a env with
    | none => none
    | some (x, env1) =>
      match evalExpr fuel b env1 with
      | none => none
      | some (y, env2) => some (x + y, env2)
  | fuel, .Subtract a b, env =>
    match evalExpr fuel a env with
    | none => none
    | some (x, env1) =>
      match evalExpr fuel b env1 with
      | none => none
      | some (y, env2) => some (x - y, env2)
  | _, .Read, _ => none

/-- `impl Eval for LVar` from `src/parser.rs`: `Let` writes each binding
into the shared environment immediately and never removes it; `Var` is
`env.get(name).unwrap()`, whose panic on a missing name is `none`. -/
def evalLVar : Nat → LVar → Env → Option (Int × Env)
  | fuel, .Let bs body, env =>
    match evalBindings fuel bs env with
    | none => none
    | some env' => evalExpr fuel body env'
  | _, .Var name, env => (env.lookup name).map (fun v => (v, env))

/-- The binding loop of `LVar::eval`: evaluate each binding's value in
order and insert it immediately. -/
def evalBindings : Nat → List Binding → Env → Option Env
  | _, [], env => some env
  | fuel, .mk name value :: rest, env =>
    match evalExpr fuel value env with
    | none => none
    | some (v, env1) => evalBindings fuel rest ((name, v) :: env1)

end

/-- `Expression::evaluate` from `src/parser.rs`: evaluate with a fresh,
empty environment. -/
def evaluate (e : Expression) : Option Int :=
  (evalExpr (e.size + 1) e []).map (·.1)

/-- Composition of lexer, parser and evaluator on a source string. -/
def evaluateStr (s : String) : Option Int :=
  (parseStr s).bind evaluate

mutual

/-- Modelled from the spec: the generic/untyped parser variant of §4.2
(`expr := NUMBER | '(' IDENT expr* ')'`, any arity, building
`Call(head, args)`), producing the `Call`-based AST that `main.rs`'s
`partially_evaluate` and `interpret` consume.  No such parser is present
under `src` (`parser.rs` only has the typed, binary variant), yet
`main.rs` applies `parse`'s result to the `Call`-based functions. -/
def parseExprU : Nat → List Token → Option (UExp × List Token)
  | 0, _ => none
  | _ + 1, Token.Number n :: rest => some (.Number n, rest)
  | fuel + 1, Token.LParen :: Token.Identifier id :: rest =>
    match parseArgsU fuel rest with
    | none => none
    | some (args, rest2) => some (.Call id args, rest2)
  | _ + 1, _ => none

/-- Modelled from the spec: the argument loop of the untyped parser —
parse expressions until `)`, then consume the `)`. -/
def parseArgsU : Nat → List Token → Option (List UExp × List Token)
  | 0, _ => none
  | _ + 1, Token.RParen :: rest => some ([], rest)
  | fuel + 1, ts =>
    match parseExprU fuel ts with
    | none => none
    | some (e, rest) =>
      match parseArgsU fuel rest with
      | none => none
      | some (args, rest2) => some (e :: args, rest2)

end

/-- Modelled from the spec: top-level untyped parse (see `parseExprU`). -/
def parseU (ts : List Token) : Option UExp :=
  (parseExprU (2 * ts.length + 4) ts).map (·.1)

/-- Lexer composed with the untyped parser. -/
def parseUStr (s : String) : Option UExp :=
  (tokenize s).bind parseU

mutual

/-- `true` iff the expression contains no `Call("read", _)` node anywhere. -/
def noReadB : UExp → Bool
  | .Number _ => true
  | .Call id args => !(id == "read") && noReadListB args
termination_by e => sizeOf e

/-- `noReadB` over an argument list. -/
def noReadListB : List UExp → Bool
  | [] => true
  | a :: rest => noReadB a && noReadListB rest
termination_by l => sizeOf l

end

mutual

/-- `true` iff every operator in the expression is one the evaluators
recognize (`+`, `-` or `read`); i.e. no unrecognized operator occurs. -/
def recognizedB : UExp → Bool
  | .Number _ => true
  | .Call id args =>
    (id == "+" || id == "-" || id == "read") && recognizedListB args
termination_by e => sizeOf e

/-- `recognizedB` over an argument list. -/
def recognizedListB : List UExp → Bool
  | [] => true
  | a :: rest => recognizedB a && recognizedListB rest
termination_by l => sizeOf l

end

mutual

/-- `true` iff every `Call("-", args)` node in the expression has a
nonempty argument list, so `partially_evaluate`'s `args[0]` index is
always in bounds. -/
def minusOkB : UExp → Bool
  | .Number _ => true
  | .Call id args => (!(id == "-") || !args.isEmpty) && minusOkListB args
termination_by e => sizeOf e

/-- `minusOkB` over an argument list. -/
def minusOkListB : List UExp → Bool
  | [] => true
  | a :: rest => minusOkB a && minusOkListB rest
termination_by l => sizeOf l

end

end Lol

namespace Lol

/-- The split that spec §4.5 describes: separate a list of
partial-evaluation results into the sum of its `Number`s and the
residual non-`Number` results in their original order. -/
def splitConst : List UExp → Int × List UExp
  | [] => (0, [])
  | x :: rest =>
    let p := splitConst rest
    match x with
    | .Number n => (n + p.1, p.2)
    | .Call i a => (p.1, .Call i a :: p.2)

theorem peLoop_shift (l : List UExp) : ∀ s acc, peLoop l s acc =
    (peLoop l 0 []).map (fun p => (s + p.1, acc ++ p.2)) := by
  induction l with
  | nil => intro s acc; simp [peLoop]
  | cons a rest ih =>
    intro s acc
    cases h : partiallyEvaluate a with
    | none => simp [peLoop, h]
    | some b =>
      cases b with
      | Number n =>
        simp only [peLoop, h]
        rw [ih (s + n) acc, ih (0 + n) []]
        cases hb : peLoop rest 0 [] with
        | none => simp
        | some p => simp; omega
      | Call id2 args2 =>
        simp only [peLoop, h]
        rw [ih s (acc ++ [UExp.Call id2 args2]), ih 0 ([] ++ [UExp.Call id2 args2])]
        cases hb : peLoop rest 0 [] with
        | none => simp
        | some p => simp

theorem peLoop_append (l1 l2 : List UExp) : ∀ s acc,
    peLoop (l1 ++ l2) s acc =
      match peLoop l1 s acc with
      | none => none
      | some p => peLoop l2 p.1 p.2 := by
  induction l1 with
  | nil => intro s acc; simp [peLoop]
  | cons a rest ih =>
    intro s acc
    rw [List.cons_append]
    cases h : partiallyEvaluate a with
    | none => simp [peLoop, h]
    | some b =>
      cases b with
      | Number n => simp only [peLoop, h]; rw [ih]
      | Call id2 args2 => simp only [peLoop, h]; rw [ih]

theorem peLoop_fixed (R : List UExp)
    (h : ∀ x ∈ R, partiallyEvaluate x = some x ∧ ∃ i a, x = UExp.Call i a) :
    ∀ s acc, peLoop R s acc = some (s, acc ++ R) := by
  induction R with
  | nil => intro s acc; simp [peLoop]
  | cons x rest ih =>
    intro s acc
    obtain ⟨hx, i, a, hxc⟩ := h x (List.mem_cons_self x rest)
    subst hxc
    simp only [peLoop, hx]
    rw [ih (fun y hy => h y (List.mem_cons_of_mem _ hy))]
    simp

theorem peLoop_members (l : List UExp) : ∀ s acc S R,
    peLoop l s acc = some (S, R) → ∀ x ∈ R,
      x ∈ acc ∨ ∃ a ∈ l, partiallyEvaluate a = some x ∧ ∃ i ar, x = UExp.Call i ar := by
  induction l with
  | nil =>
    intro s acc S R h x hx
    simp [peLoop] at h
    exact Or.inl (h.2 ▸ hx)
  | cons a rest ih =>
    intro s acc S R h x hx
    cases hpe : partiallyEvaluate a with
    | none => rw [peLoop, hpe] at h; exact absurd h (by simp)
    | some b =>
      cases b with
      | Number n =>
        simp only [peLoop, hpe] at h
        rcases ih _ _ _ _ h x hx with hacc | ⟨a', ha', h1, h2⟩
        · exact Or.inl hacc
        · exact Or.inr ⟨a', List.mem_cons_of_mem _ ha', h1, h2⟩
      | Call id2 args2 =>
        simp only [peLoop, hpe] at h
        rcases ih _ _ _ _ h x hx with hacc | ⟨a', ha', h1, h2⟩
        · rcases List.mem_append.1 hacc with h' | h'
          · exact Or.inl h'
          · simp at h'
            exact Or.inr ⟨a, List.mem_cons_self a rest, h' ▸ hpe, id2, args2, h'⟩
        · exact Or.inr ⟨a', List.mem_cons_of_mem _ ha', h1, h2⟩

end Lol

namespace Lol

theorem pe_number (n : Int) : partiallyEvaluate (UExp.Number n) = some (UExp.Number n) :=
  partiallyEvaluate.eq_1 n

theorem pe_plus (args : List UExp) : partiallyEvaluate (UExp.Call "+" args) =
    match peLoop args 0 [] with
    | none => none
    | some (sum, newArgs) =>
      if newArgs.isEmpty then some (UExp.Number sum)
      else some (UExp.Call "+" (UExp.Number sum :: newArgs)) := by
  cases args with
  | nil => rw [partiallyEvaluate.eq_2]; simp
  | cons a0 rest => rw [partiallyEvaluate.eq_3]; simp

theorem pe_minus_nil : partiallyEvaluate (UExp.Call "-" []) = none := by
  rw [partiallyEvaluate.eq_2]
  simp

theorem pe_minus (a0 : UExp) (subtrahends : List UExp) :
    partiallyEvaluate (UExp.Call "-" (a0 :: subtrahends)) =
      match partiallyEvaluate a0 with
      | none => none
      | some minuend =>
        match peLoop subtrahends 0 [] with
        | none => none
        | some (sum, newArgs) =>
          match minuend with
          | .Number n =>
            if newArgs.isEmpty then some (UExp.Number (n - sum))
            else some (UExp.Call "-" (UExp.Number (n - sum) :: newArgs))
          | .Call id2 args2 =>
            some (UExp.Call "-" (UExp.Call id2 args2 :: (newArgs ++ [UExp.Number sum]))) := by
  rw [partiallyEvaluate.eq_3]
  simp

theorem pe_unhandled (id : String) (args : List UExp) (h1 : id ≠ "+") (h2 : id ≠ "-") :
    partiallyEvaluate (UExp.Call id args) = some (UExp.Call id args) := by
  cases args with
  | nil => rw [partiallyEvaluate.eq_2]; simp [h1, h2]
  | cons a0 rest => rw [partiallyEvaluate.eq_3]; simp [h1, h2]

theorem pe_fixpoint : ∀ e e', partiallyEvaluate e = some e' → partiallyEvaluate e' = some e' := by
  intro e
  induction e using UExp.inductionOn with
  | hnum n =>
    intro e' h
    rw [pe_number] at h
    cases h
    exact pe_number n
  | hcall id args ih =>
    intro e' h
    by_cases hplus : id = "+"
    · subst hplus
      rw [pe_plus] at h
      cases hl : peLoop args 0 [] with
      | none => rw [hl] at h; cases h
      | some p =>
        obtain ⟨S, R⟩ := p
        rw [hl] at h
        have hfix : ∀ x ∈ R, partiallyEvaluate x = some x ∧ ∃ i a, x = UExp.Call i a := by
          intro x hx
          rcases peLoop_members args 0 [] S R hl x hx with hacc | ⟨a, ha, h1, h2⟩
          · cases hacc
          · exact ⟨ih a ha x h1, h2⟩
        by_cases hR : R.isEmpty
        · simp only [hR, if_pos] at h
          cases h
          exact pe_number S
        · simp only [hR, Bool.false_eq_true, if_false] at h
          cases h
          rw [pe_plus]
          have h2 : peLoop (UExp.Number S :: R) 0 [] = some (S, R) := by
            rw [peLoop, pe_number]
            dsimp only
            rw [peLoop_fixed R hfix (0 + S) []]
            simp
          rw [h2]
          simp [hR]
    · by_cases hminus : id = "-"
      · subst hminus
        cases args with
        | nil => rw [pe_minus_nil] at h; cases h
        | cons a0 subs =>
          rw [pe_minus] at h
          cases hm : partiallyEvaluate a0 with
          | none => rw [hm] at h; cases h
          | some minuend =>
            rw [hm] at h
            cases hl : peLoop subs 0 [] with
            | none => rw [hl] at h; cases h
            | some p =>
              obtain ⟨S, R⟩ := p
              rw [hl] at h
              have hfix : ∀ x ∈ R, partiallyEvaluate x = some x ∧ ∃ i a, x = UExp.Call i a := by
                intro x hx
                rcases peLoop_members subs 0 [] S R hl x hx with hacc | ⟨a, ha, h1, h2⟩
                · cases hacc
                · exact ⟨ih a (List.mem_cons_of_mem _ ha) x h1, h2⟩
              cases minuend with
              | Number n =>
                by_cases hR : R.isEmpty
                · simp only [hR, if_pos] at h
                  cases h
                  exact pe_number _
                · simp only [hR, Bool.false_eq_true, if_false] at h
                  cases h
                  rw [pe_minus, pe_number]
                  rw [peLoop_fixed R hfix 0 []]
                  simp [hR]
              | Call i2 a2 =>
                cases h
                rw [pe_minus]
                rw [ih a0 (List.mem_cons_self a0 subs) _ hm]
                have h2 : peLoop (R ++ [UExp.Number S]) 0 [] = some (S, R) := by
                  rw [peLoop_append R [UExp.Number S] 0 []]
                  rw [peLoop_fixed R hfix 0 []]
                  dsimp only
                  rw [peLoop, pe_number]
                  dsimp only
                  rw [peLoop]
                  simp
                rw [h2]
      · rw [pe_unhandled id args hplus hminus] at h
        cases h
        exact pe_unhandled id args hplus hminus

theorem interp_number (n : Int) : interpret (UExp.Number n) = some n :=
  interpret.eq_1 n

theorem interp_plus (args : List UExp) :
    interpret (UExp.Call "+" args) = interpSum args 0 := by
  cases args with
  | nil => rw [interpret.eq_2]; simp
  | cons a0 rest => rw [interpret.eq_3]; simp

theorem interp_minus_nil : interpret (UExp.Call "-" []) = none := by
  rw [interpret.eq_2]
  simp

theorem interp_minus (a0 : UExp) (subtrahends : List UExp) :
    interpret (UExp.Call "-" (a0 :: subtrahends)) =
      match interpret a0 with
      | none => none
      | some m => interpSub subtrahends m := by
  rw [interpret.eq_3]
  simp

theorem interpSum_shift (l : List UExp) : ∀ s, interpSum l s =
    (interpSum l 0).map (fun S => s + S) := by
  induction l with
  | nil => intro s; simp [interpSum]
  | cons a rest ih =>
    intro s
    cases h : interpret a with
    | none => simp [interpSum, h]
    | some n =>
      simp only [interpSum, h]
      rw [ih (s + n), ih (0 + n)]
      cases hb : interpSum rest 0 with
      | none => simp
      | some S => simp; omega

theorem interpSub_eq (l : List UExp) : ∀ m, interpSub l m =
    (interpSum l 0).map (fun S => m - S) := by
  induction l with
  | nil => intro m; simp [interpSub, interpSum]
  | cons a rest ih =>
    intro m
    cases h : interpret a with
    | none => simp [interpSub, interpSum, h]
    | some n =>
      simp only [interpSub, interpSum, h]
      rw [ih (m - n), interpSum_shift rest (0 + n)]
      cases hb : interpSum rest 0 with
      | none => simp
      | some S => simp; omega

theorem noReadListB_mem {l : List UExp} (h : noReadListB l = true) :
    ∀ a ∈ l, noReadB a = true := by
  induction l with
  | nil => intro a ha; cases ha
  | cons x rest ih =>
    rw [noReadListB, Bool.and_eq_true] at h
    intro a ha
    rcases List.mem_cons.1 ha with rfl | ha'
    · exact h.1
    · exact ih h.2 a ha'

theorem recognizedListB_mem {l : List UExp} (h : recognizedListB l = true) :
    ∀ a ∈ l, recognizedB a = true := by
  induction l with
  | nil => intro a ha; cases ha
  | cons x rest ih =>
    rw [recognizedListB, Bool.and_eq_true] at h
    intro a ha
    rcases List.mem_cons.1 ha with rfl | ha'
    · exact h.1
    · exact ih h.2 a ha'

theorem minusOkListB_mem {l : List UExp} (h : minusOkListB l = true) :
    ∀ a ∈ l, minusOkB a = true := by
  induction l with
  | nil => intro a ha; cases ha
  | cons x rest ih =>
    rw [minusOkListB, Bool.and_eq_true] at h
    intro a ha
    rcases List.mem_cons.1 ha with rfl | ha'
    · exact h.1
    · exact ih h.2 a ha'

/-- On `read`-free expressions with only recognized operators, partial
evaluation folds everything to a literal whose value is exactly what
`interpret` computes — or both computations fail on the same
ill-formed `-` node. -/
theorem pe_interp : ∀ e, noReadB e = true → recognizedB e = true →
    (partiallyEvaluate e = none ∧ interpret e = none) ∨
    ∃ n, partiallyEvaluate e = some (UExp.Number n) ∧ interpret e = some n := by
  have listLemma : ∀ (l : List UExp),
      (∀ a ∈ l, (partiallyEvaluate a = none ∧ interpret a = none) ∨
        ∃ n, partiallyEvaluate a = some (UExp.Number n) ∧ interpret a = some n) →
      (peLoop l 0 [] = none ∧ interpSum l 0 = none) ∨
      ∃ S, peLoop l 0 [] = some (S, []) ∧ interpSum l 0 = some S := by
    intro l
    induction l with
    | nil => intro _; exact Or.inr ⟨0, by simp [peLoop], by simp [interpSum]⟩
    | cons a rest ih =>
      intro h
      rcases h a (List.mem_cons_self a rest) with ⟨hp, hi⟩ | ⟨n, hp, hi⟩
      · left
        constructor
        · simp only [peLoop, hp]
        · simp only [interpSum, hi]
      · rcases ih (fun x hx => h x (List.mem_cons_of_mem _ hx)) with ⟨hp', hi'⟩ | ⟨S, hp', hi'⟩
        · left
          constructor
          · simp only [peLoop, hp]
            rw [peLoop_shift rest (0 + n) [], hp']
            rfl
          · simp only [interpSum, hi]
            rw [interpSum_shift rest (0 + n), hi']
            rfl
        · right
          refine ⟨n + S, ?_, ?_⟩
          · simp only [peLoop, hp]
            rw [peLoop_shift rest (0 + n) [], hp']
            simp
          · simp only [interpSum, hi]
            rw [interpSum_shift rest (0 + n), hi']
            simp
  intro e
  induction e using UExp.inductionOn with
  | hnum n => intro _ _; exact Or.inr ⟨n, pe_number n, interp_number n⟩
  | hcall id args ih =>
    intro hnr hrec
    rw [noReadB, Bool.and_eq_true] at hnr
    rw [recognizedB, Bool.and_eq_true] at hrec
    have hmem : ∀ a ∈ args,
        (partiallyEvaluate a = none ∧ interpret a = none) ∨
        ∃ n, partiallyEvaluate a = some (UExp.Number n) ∧ interpret a = some n :=
      fun a ha => ih a ha (noReadListB_mem hnr.2 a ha) (recognizedListB_mem hrec.2 a ha)
    have hid : id = "+" ∨ id = "-" := by
      have h1 := hnr.1
      have h2 := hrec.1
      simp only [Bool.not_eq_true', beq_eq_false_iff_ne, ne_eq] at h1
      simp only [Bool.or_eq_true, beq_iff_eq] at h2
      tauto
    rcases hid with rfl | rfl
    · rcases listLemma args hmem with ⟨hp, hi⟩ | ⟨S, hp, hi⟩
      · left
        rw [pe_plus, hp, interp_plus]
        exact ⟨rfl, hi⟩
      · right
        refine ⟨S, ?_, ?_⟩
        · rw [pe_plus, hp]
          simp
        · rw [interp_plus]
          exact hi
    · cases args with
      | nil => exact Or.inl ⟨pe_minus_nil, interp_minus_nil⟩
      | cons a0 subs =>
        have hsubs : ∀ a ∈ subs,
            (partiallyEvaluate a = none ∧ interpret a = none) ∨
            ∃ n, partiallyEvaluate a = some (UExp.Number n) ∧ interpret a = some n :=
          fun a ha => hmem a (List.mem_cons_of_mem _ ha)
        rcases hmem a0 (List.mem_cons_self a0 subs) with ⟨hp0, hi0⟩ | ⟨m, hp0, hi0⟩
        · left
          rw [pe_minus, hp0, interp_minus, hi0]
          exact ⟨rfl, rfl⟩
        · rcases listLemma subs hsubs with ⟨hp', hi'⟩ | ⟨S, hp', hi'⟩
          · left
            constructor
            · rw [pe_minus, hp0, hp']
            · rw [interp_minus, hi0]
              dsimp only
              rw [interpSub_eq subs m, hi']
              rfl
          · right
            refine ⟨m - S, ?_, ?_⟩
            · rw [pe_minus, hp0, hp']
              simp
            · rw [interp_minus, hi0]
              dsimp only
              rw [interpSub_eq subs m, hi']
              rfl

theorem peLoop_of_mapM : ∀ (subs rs : List UExp),
    subs.mapM partiallyEvaluate = some rs →
    ∀ s acc, peLoop subs s acc =
      some (s + (splitConst rs).1, acc ++ (splitConst rs).2) := by
  intro subs
  induction subs with
  | nil =>
    intro rs h s acc
    simp only [List.mapM_nil, pure, Option.some.injEq] at h
    subst h
    simp [peLoop, splitConst]
  | cons a rest ih =>
    intro rs h s acc
    simp only [List.mapM_cons] at h
    rcases Option.bind_eq_some.1 h with ⟨b, hb, h2⟩
    rcases Option.bind_eq_some.1 h2 with ⟨bs, hbs, h3⟩
    simp only [pure, Option.some.injEq] at h3
    subst h3
    cases b with
    | Number n =>
      simp only [peLoop, hb]
      rw [ih bs hbs (s + n) acc]
      simp [splitConst]
      omega
    | Call i2 a2 =>
      simp only [peLoop, hb]
      rw [ih bs hbs s (acc ++ [UExp.Call i2 a2])]
      simp [splitConst]

theorem peLoop_isSome (l : List UExp)
    (h : ∀ a ∈ l, (partiallyEvaluate a).isSome = true) :
    ∀ s acc, (peLoop l s acc).isSome = true := by
  induction l with
  | nil => intro s acc; simp [peLoop]
  | cons a rest ih =>
    intro s acc
    have ha := h a (List.mem_cons_self a rest)
    rcases Option.isSome_iff_exists.1 ha with ⟨b, hb⟩
    cases b with
    | Number n =>
      simp only [peLoop, hb]
      exact ih (fun x hx => h x (List.mem_cons_of_mem _ hx)) (s + n) acc
    | Call i2 a2 =>
      simp only [peLoop, hb]
      exact ih (fun x hx => h x (List.mem_cons_of_mem _ hx)) s (acc ++ [UExp.Call i2 a2])

/-- `partially_evaluate` succeeds on every expression in which each `-`
call has at least one argument. -/
theorem pe_total : ∀ e, minusOkB e = true → (partiallyEvaluate e).isSome = true := by
  intro e
  induction e using UExp.inductionOn with
  | hnum n => intro _; rw [pe_number]; rfl
  | hcall id args ih =>
    intro h
    rw [minusOkB, Bool.and_eq_true] at h
    have hmem : ∀ a ∈ args, (partiallyEvaluate a).isSome = true :=
      fun a ha => ih a ha (minusOkListB_mem h.2 a ha)
    by_cases hplus : id = "+"
    · subst hplus
      rw [pe_plus]
      rcases Option.isSome_iff_exists.1 (peLoop_isSome args hmem 0 []) with ⟨p, hp⟩
      obtain ⟨S, R⟩ := p
      rw [hp]
      dsimp only
      by_cases hR : R.isEmpty <;> simp [hR]
    · by_cases hminus : id = "-"
      · subst hminus
        cases args with
        | nil =>
          exfalso
          have := h.1
          simp at this
        | cons a0 subs =>
          rw [pe_minus]
          rcases Option.isSome_iff_exists.1 (hmem a0 (List.mem_cons_self a0 subs)) with ⟨b, hb⟩
          rcases Option.isSome_iff_exists.1
            (peLoop_isSome subs (fun x hx => hmem x (List.mem_cons_of_mem _ hx)) 0 []) with ⟨p, hp⟩
          obtain ⟨S, R⟩ := p
          rw [hb, hp]
          dsimp only
          cases b with
          | Number n => by_cases hR : R.isEmpty <;> simp [hR]
          | Call i2 a2 => simp
      · rw [pe_unhandled id args hplus hminus]
        rfl

/-- Once a name is bound in the environment, no evaluation step ever
removes it: the domain of the environment only grows (there is no
scope-exit cleanup anywhere in `Eval`). -/
theorem eval_mono : ∀ fuel : Nat,
    (∀ e env n env', evalExpr fuel e env = some (n, env') →
      ∀ k, (env.lookup k).isSome = true → (env'.lookup k).isSome = true) ∧
    (∀ l env n env', evalLInt fuel l env = some (n, env') →
      ∀ k, (env.lookup k).isSome = true → (env'.lookup k).isSome = true) ∧
    (∀ l env n env', evalLVar fuel l env = some (n, env') →
      ∀ k, (env.lookup k).isSome = true → (env'.lookup k).isSome = true) ∧
    (∀ bs env env', evalBindings fuel bs env = some env' →
      (∀ k, (env.lookup k).isSome = true → (env'.lookup k).isSome = true) ∧
      (∀ b ∈ bs, (env'.lookup b.name).isSome = true)) := by
  intro fuel
  induction fuel with
  | zero =>
    have hE : ∀ (e : Expression) env (n : Int) env', evalExpr 0 e env = some (n, env') →
        ∀ k, (env.lookup k).isSome = true → (env'.lookup k).isSome = true := by
      intro e env n env' h
      simp [evalExpr] at h
    have hB : ∀ bs env env', evalBindings 0 bs env = some env' →
        (∀ k, (env.lookup k).isSome = true → (env'.lookup k).isSome = true) ∧
        (∀ b ∈ bs, (env'.lookup b.name).isSome = true) := by
      intro bs env env' h
      cases bs with
      | nil =>
        rw [evalBindings] at h
        cases h
        exact ⟨fun _ hk => hk, by simp⟩
      | cons b rest =>
        obtain ⟨name, value⟩ := b
        rw [evalBindings] at h
        simp [evalExpr] at h
    refine ⟨hE, ?_, ?_, hB⟩
    · intro l env n env' h k hk
      cases l with
      | Number m => rw [evalLInt] at h; cases h; exact hk
      | Add a b => rw [evalLInt] at h; simp [evalExpr] at h
      | Subtract a b => rw [evalLInt] at h; simp [evalExpr] at h
      | Read => rw [evalLInt] at h; cases h
    · intro l env n env' h k hk
      cases l with
      | Let bs body =>
        rw [evalLVar] at h
        cases hbs : evalBindings 0 bs env with
        | none => rw [hbs] at h; cases h
        | some env1 =>
          rw [hbs] at h
          exact hE body env1 n env' h k ((hB bs env env1 hbs).1 k hk)
      | Var name =>
        rw [evalLVar] at h
        rcases Option.map_eq_some'.1 h with ⟨v, _, hp⟩
        cases hp
        exact hk
  | succ fuel ih =>
    obtain ⟨_, ihI, ihV, _⟩ := ih
    have hA : ∀ e env n env', evalExpr (fuel + 1) e env = some (n, env') →
        ∀ k, (env.lookup k).isSome = true → (env'.lookup k).isSome = true := by
      intro e env n env' h
      cases e with
      | LInt l => rw [evalExpr] at h; exact ihI l env n env' h
      | LVar l => rw [evalExpr] at h; exact ihV l env n env' h
    have hD : ∀ bs env env', evalBindings (fuel + 1) bs env = some env' →
        (∀ k, (env.lookup k).isSome = true → (env'.lookup k).isSome = true) ∧
        (∀ b ∈ bs, (env'.lookup b.name).isSome = true) := by
      intro bs
      induction bs with
      | nil =>
        intro env env' h
        rw [evalBindings] at h
        cases h
        exact ⟨fun _ hk => hk, by simp⟩
      | cons b rest ihrest =>
        intro env env' h
        obtain ⟨name, value⟩ := b
        rw [evalBindings] at h
        cases hv : evalExpr (fuel + 1) value env with
        | none => rw [hv] at h; cases h
        | some p =>
          obtain ⟨v, env1⟩ := p
          rw [hv] at h
          obtain ⟨hmono, hnames⟩ := ihrest ((name, v) :: env1) env' h
          have hcons : ∀ k, (env.lookup k).isSome = true →
              (List.lookup k ((name, v) :: env1)).isSome = true := by
            intro k hk
            by_cases hkn : k = name
            · subst hkn; simp [List.lookup]
            · have hbeq : (k == name) = false := beq_eq_false_iff_ne.2 hkn
              have := hA value env v env1 hv k hk
              simp only [List.lookup, hbeq]
              exact this
          refine ⟨fun k hk => hmono k (hcons k hk), ?_⟩
          intro b hb
          rcases List.mem_cons.1 hb with rfl | hb'
          · exact hmono name (by simp [List.lookup, Binding.name])
          · exact hnames b hb'
    have hI : ∀ l env n env', evalLInt (fuel + 1) l env = some (n, env') →
        ∀ k, (env.lookup k).isSome = true → (env'.lookup k).isSome = true := by
      intro l env n env' h k hk
      cases l with
      | Number m => rw [evalLInt] at h; cases h; exact hk
      | Add a b =>
        rw [evalLInt] at h
        cases h1 : evalExpr (fuel + 1) a env with
        | none => rw [h1] at h; cases h
        | some p =>
          obtain ⟨x, env1⟩ := p
          rw [h1] at h
          dsimp only at h
          cases h2 : evalExpr (fuel + 1) b env1 with
          | none => rw [h2] at h; cases h
          | some q =>
            obtain ⟨y, env2⟩ := q
            rw [h2] at h
            cases h
            exact hA b env1 y _ h2 k (hA a env x env1 h1 k hk)
      | Subtract a b =>
        rw [evalLInt] at h
        cases h1 : evalExpr (fuel + 1) a env with
        | none => rw [h1] at h; cases h
        | some p =>
          obtain ⟨x, env1⟩ := p
          rw [h1] at h
          dsimp only at h
          cases h2 : evalExpr (fuel + 1) b env1 with
          | none => rw [h2] at h; cases h
          | some q =>
            obtain ⟨y, env2⟩ := q
            rw [h2] at h
            cases h
            exact hA b env1 y _ h2 k (hA a env x env1 h1 k hk)
      | Read => rw [evalLInt] at h; cases h
    have hV : ∀ l env n env', evalLVar (fuel + 1) l env = some (n, env') →
        ∀ k, (env.lookup k).isSome = true → (env'.lookup k).isSome = true := by
      intro l env n env' h k hk
      cases l with
      | Let bs body =>
        rw [evalLVar] at h
        cases hbs : evalBindings (fuel + 1) bs env with
        | none => rw [hbs] at h; cases h
        | some env1 =>
          rw [hbs] at h
          exact hA body env1 n env' h k ((hD bs env env1 hbs).1 k hk)
      | Var name =>
        rw [evalLVar] at h
        rcases Option.map_eq_some'.1 h with ⟨v, _, hp⟩
        cases hp
        exact hk
    exact ⟨hA, hI, hV, hD⟩

/-- A `let`'s bindings are all still present in the environment after the
whole `Let` evaluation returns (dynamic extent, no scope-exit removal). -/
theorem let_bindings_persist (fuel : Nat) (bs : List Binding) (body : Expression)
    (env : Env) (r : Int) (env' : Env)
    (h : evalLVar fuel (LVar.Let bs body) env = some (r, env')) :
    ∀ b ∈ bs, (env'.lookup b.name).isSome = true := by
  cases fuel with
  | zero =>
    rw [evalLVar] at h
    cases hbs : evalBindings 0 bs env with
    | none => rw [hbs] at h; cases h
    | some env1 =>
      rw [hbs] at h
      intro b hb
      exact (eval_mono 0).1 body env1 r env' h b.name (((eval_mono 0).2.2.2 bs env env1 hbs).2 b hb)
  | succ fuel =>
    rw [evalLVar] at h
    cases hbs : evalBindings (fuel + 1) bs env with
    | none => rw [hbs] at h; cases h
    | some env1 =>
      rw [hbs] at h
      intro b hb
      exact (eval_mono (fuel + 1)).1 body env1 r env' h b.name
        (((eval_mono (fuel + 1)).2.2.2 bs env env1 hbs).2 b hb)

/-- Every token the lexer loop emits is a non-sentinel token, and every
`Number` token it emits is nonnegative (digit runs have no sign). -/
theorem tokenizeAux_tokens : ∀ fuel cs ts, tokenizeAux fuel cs = some ts →
    Token.EndOfFile ∉ ts ∧ ∀ n : Int, Token.Number n ∈ ts → 0 ≤ n := by
  intro fuel
  induction fuel with
  | zero => intro cs ts h; cases h
  | succ fuel ih =>
    intro cs ts h
    cases cs with
    | nil =>
      rw [tokenizeAux] at h
      cases h
      simp
    | cons c cs' =>
      rw [tokenizeAux] at h
      by_cases hd : isDigitC c
      · rw [if_pos hd] at h
        dsimp only at h
        by_cases hn : digitsToNat (c :: cs'.takeWhile isDigitC) ≤ i32Max
        · rw [if_pos hn] at h
          rcases Option.map_eq_some'.1 h with ⟨ts', hts', rfl⟩
          obtain ⟨hne, hnn⟩ := ih _ _ hts'
          refine ⟨by simp [hne], ?_⟩
          intro n hmem
          rcases List.mem_cons.1 hmem with heq | hmem'
          · cases heq
            positivity
          · exact hnn n hmem'
        · rw [if_neg hn] at h
          cases h
      · rw [if_neg hd] at h
        by_cases hi : isIdentC c
        · rw [if_pos hi] at h
          rcases Option.map_eq_some'.1 h with ⟨ts', hts', rfl⟩
          obtain ⟨hne, hnn⟩ := ih _ _ hts'
          refine ⟨by simp [hne], ?_⟩
          intro n hmem
          rcases List.mem_cons.1 hmem with heq | hmem'
          · cases heq
          · exact hnn n hmem'
        · rw [if_neg hi] at h
          by_cases hp : c = '('
          · rw [if_pos hp] at h
            rcases Option.map_eq_some'.1 h with ⟨ts', hts', rfl⟩
            obtain ⟨hne, hnn⟩ := ih _ _ hts'
            refine ⟨by simp [hne], ?_⟩
            intro n hmem
            rcases List.mem_cons.1 hmem with heq | hmem'
            · cases heq
            · exact hnn n hmem'
          · rw [if_neg hp] at h
            by_cases hq : c = ')'
            · rw [if_pos hq] at h
              rcases Option.map_eq_some'.1 h with ⟨ts', hts', rfl⟩
              obtain ⟨hne, hnn⟩ := ih _ _ hts'
              refine ⟨by simp [hne], ?_⟩
              intro n hmem
              rcases List.mem_cons.1 hmem with heq | hmem'
              · cases heq
              · exact hnn n hmem'
            · rw [if_neg hq] at h
              exact ih _ _ h

/-- A character that is neither a digit, an identifier character, nor a
parenthesis is skipped: it contributes no token at all. -/
theorem tokenizeAux_skip (fuel : Nat) (c : Char) (cs : List Char)
    (hd : ¬isDigitC c = true) (hi : ¬isIdentC c = true)
    (hp : c ≠ '(') (hq : c ≠ ')') :
    tokenizeAux (fuel + 1) (c :: cs) = tokenizeAux fuel cs := by
  rw [tokenizeAux]
  rw [if_neg hd, if_neg hi, if_neg hp, if_neg hq]

/-- If the lexer loop fails (given adequate fuel), the input contains a
nonempty digit run whose numeric value exceeds `i32::MAX` — the only
panic in `tokenize` is `number.parse::<i32>().unwrap()`. -/
theorem tokenizeAux_none_bigrun : ∀ fuel cs, cs.length < fuel →
    tokenizeAux fuel cs = none →
    ∃ ds : List Char, ds ≠ [] ∧ (∀ c ∈ ds, isDigitC c = true) ∧
      (∃ pre post, cs = pre ++ (ds ++ post)) ∧ i32Max < digitsToNat ds := by
  intro fuel
  induction fuel with
  | zero => intro cs hlen h; omega
  | succ fuel ih =>
    intro cs hlen h
    cases cs with
    | nil => rw [tokenizeAux] at h; cases h
    | cons c cs' =>
      have hlen' : cs'.length < fuel := by simp at hlen; omega
      have hdrop : ∀ p : Char → Bool, (cs'.dropWhile p).length < fuel :=
        fun p => Nat.lt_of_le_of_lt (List.dropWhile_suffix p).length_le hlen'
      rw [tokenizeAux] at h
      by_cases hd : isDigitC c
      · rw [if_pos hd] at h
        dsimp only at h
        by_cases hn : digitsToNat (c :: cs'.takeWhile isDigitC) ≤ i32Max
        · rw [if_pos hn] at h
          have h' := Option.map_eq_none'.1 h
          obtain ⟨ds, hne, hdig, ⟨pre, post, hdecomp⟩, hval⟩ := ih _ (hdrop isDigitC) h'
          refine ⟨ds, hne, hdig, ⟨c :: (cs'.takeWhile isDigitC ++ pre), post, ?_⟩, hval⟩
          conv_lhs => rw [show cs' = cs'.takeWhile isDigitC ++ cs'.dropWhile isDigitC from
            (List.takeWhile_append_dropWhile isDigitC cs').symm]
          rw [hdecomp]
          simp
        · rw [if_neg hn] at h
          refine ⟨c :: cs'.takeWhile isDigitC, by simp, ?_, ⟨[], cs'.dropWhile isDigitC, ?_⟩, by omega⟩
          · intro x hx
            rcases List.mem_cons.1 hx with rfl | hx'
            · exact hd
            · exact List.mem_takeWhile_imp hx'
          · simp [List.takeWhile_append_dropWhile]
      · rw [if_neg hd] at h
        by_cases hi : isIdentC c
        · rw [if_pos hi] at h
          have h' := Option.map_eq_none'.1 h
          obtain ⟨ds, hne, hdig, ⟨pre, post, hdecomp⟩, hval⟩ := ih _ (hdrop isIdentC) h'
          refine ⟨ds, hne, hdig, ⟨c :: (cs'.takeWhile isIdentC ++ pre), post, ?_⟩, hval⟩
          conv_lhs => rw [show cs' = cs'.takeWhile isIdentC ++ cs'.dropWhile isIdentC from
            (List.takeWhile_append_dropWhile isIdentC cs').symm]
          rw [hdecomp]
          simp
        · rw [if_neg hi] at h
          by_cases hp : c = '('
          · rw [if_pos hp] at h
            have h' := Option.map_eq_none'.1 h
            obtain ⟨ds, hne, hdig, ⟨pre, post, hdecomp⟩, hval⟩ := ih _ hlen' h'
            exact ⟨ds, hne, hdig, ⟨c :: pre, post, by rw [hdecomp]; simp⟩, hval⟩
          · rw [if_neg hp] at h
            by_cases hq : c = ')'
            · rw [if_pos hq] at h
              have h' := Option.map_eq_none'.1 h
              obtain ⟨ds, hne, hdig, ⟨pre, post, hdecomp⟩, hval⟩ := ih _ hlen' h'
              exact ⟨ds, hne, hdig, ⟨c :: pre, post, by rw [hdecomp]; simp⟩, hval⟩
            · rw [if_neg hq] at h
              obtain ⟨ds, hne, hdig, ⟨pre, post, hdecomp⟩, hval⟩ := ih _ hlen' h
              exact ⟨ds, hne, hdig, ⟨c :: pre, post, by rw [hdecomp]; simp⟩, hval⟩

end Lol

namespace Lol

/-- Unexpected leading state: an exhausted token list makes
`tokens.peek()`/`next()` fail fatally. -/
theorem parseExpression_nil (fuel : Nat) : parseExpression fuel [] = none := by
  cases fuel with
  | zero => rfl
  | succ f => rfl

/-- Unexpected leading `)` panics (`"Unexpected RParen"`). -/
theorem parseExpression_rparen (fuel : Nat) (rest : List Token) :
    parseExpression fuel (Token.RParen :: rest) = none := by
  cases fuel with
  | zero => rfl
  | succ f => rfl

/-- A leading `EndOfFile` sentinel hits the catch-all panic
(`"Unexpected token"`). -/
theorem parseExpression_eof (fuel : Nat) (rest : List Token) :
    parseExpression fuel (Token.EndOfFile :: rest) = none := by
  cases fuel with
  | zero => rfl
  | succ f => rfl

/-- The argument loop fails fatally when the tokens run out before the
required `)`. -/
theorem parseArgs_nil (fuel : Nat) : parseArgs fuel [] = none := by
  cases fuel with
  | zero => rfl
  | succ f =>
    rw [parseArgs.eq_3 [] f (by intro r h; cases h)]
    rw [parseExpression_nil]

/-- The binding loop fails fatally when the tokens run out before the
required `)`. -/
theorem parseBindings_nil (fuel : Nat) : parseBindings fuel [] = none := by
  cases fuel with
  | zero => rfl
  | succ f => rfl

/-- The binding loop fails fatally on a missing expected `(`. -/
theorem parseBindings_not_lparen (fuel : Nat) (tok : Token) (rest : List Token)
    (h1 : tok ≠ Token.LParen) (h2 : tok ≠ Token.RParen) :
    parseBindings fuel (tok :: rest) = none := by
  cases fuel with
  | zero => rfl
  | succ f =>
    cases tok with
    | Identifier id => rfl
    | Number n => rfl
    | LParen => exact absurd rfl h1
    | RParen => exact absurd rfl h2
    | EndOfFile => rfl

/-- The binding loop fails fatally when an identifier is expected for the
binding name but the next token is not one. -/
theorem parseBindings_missing_ident (fuel : Nat) (tok : Token) (rest : List Token)
    (h : ∀ id, tok ≠ Token.Identifier id) :
    parseBindings (fuel + 1) (Token.LParen :: tok :: rest) = none := by
  cases tok with
  | Identifier id => exact absurd rfl (h id)
  | Number n => rfl
  | LParen => rfl
  | RParen => rfl
  | EndOfFile => rfl

/-- Unfolding of `parse_expression` on a parenthesized call with a
non-`let` identifier head: parse the argument list, then enforce the head
and its (lower-bound-only) arity. -/
theorem parseExpression_call_unfold (fuel : Nat) (id : String) (rest2 : List Token)
    (h : id ≠ "let") :
    parseExpression (fuel + 1) (Token.LParen :: Token.Identifier id :: rest2) =
      match parseArgs fuel rest2 with
      | none => none
      | some (args, rest3) =>
        if id = "+" then
          match args with
          | a :: b :: _ => some (.LInt (.Add a b), rest3)
          | _ => none
        else if id = "-" then
          match args with
          | a :: b :: _ => some (.LInt (.Subtract a b), rest3)
          | _ => none
        else if id = "read" then some (.LInt .Read, rest3)
        else none := by
  rw [parseExpression.eq_def]
  have hne : ¬(Token.Identifier id = Token.Identifier "let") := by simp [h]
  simp only [Nat.add_one]
  rw [if_neg hne]

/-- After `(`, a call head that is not an identifier always panics
(`match tok` falls through to `"Unexpected token"`), whatever the argument
list contains. -/
theorem parseExpression_bad_head (fuel : Nat) (tok : Token) (rest2 : List Token)
    (h : ∀ id, tok ≠ Token.Identifier id) :
    parseExpression (fuel + 1) (Token.LParen :: tok :: rest2) = none := by
  have hne : ¬(tok = Token.Identifier "let") := h "let"
  rw [parseExpression.eq_def]
  simp only [Nat.add_one]
  rw [if_neg hne]
  cases hpa : parseArgs fuel rest2 with
  | none => rfl
  | some p =>
    obtain ⟨args, rest3⟩ := p
    cases tok with
    | Identifier id => exact absurd rfl (h id)
    | Number n => rfl
    | LParen => rfl
    | RParen => rfl
    | EndOfFile => rfl

/-- In the `let` branch, a missing expected `(` after the `let` head is a
fatal failure (the `assert!` panics), including when the tokens simply run
out. -/
theorem parseExpression_let_missing_lparen (fuel : Nat) :
    parseExpression (fuel + 1) [Token.LParen, Token.Identifier "let"] = none ∧
    ∀ tok rest, tok ≠ Token.LParen →
      parseExpression (fuel + 1) (Token.LParen :: Token.Identifier "let" :: tok :: rest) = none := by
  constructor
  · rw [parseExpression.eq_def]
    simp only [Nat.add_one]
    simp only [if_true]
  · intro tok rest h
    rw [parseExpression.eq_def]
    simp only [Nat.add_one]
    simp only [if_true]
    cases tok with
    | Identifier id => rfl
    | Number n => rfl
    | LParen => exact absurd rfl h
    | RParen => rfl
    | EndOfFile => rfl

/-- A `+`/`-` call whose argument loop produced fewer than two arguments
panics on the `args[1]` (or `args[0]`) index. -/
theorem parseExpression_arity_low (fuel : Nat) (id : String) (rest : List Token)
    (args : List Expression) (rest3 : List Token)
    (hpa : parseArgs fuel rest = some (args, rest3))
    (hlen : args.length < 2) (hid : id = "+" ∨ id = "-") :
    parseExpression (fuel + 1) (Token.LParen :: Token.Identifier id :: rest) = none := by
  have hlet : id ≠ "let" := by rcases hid with rfl | rfl <;> decide
  rw [parseExpression_call_unfold fuel id rest hlet, hpa]
  dsimp only
  rcases hid with rfl | rfl
  · rw [if_pos rfl]
    cases args with
    | nil => rfl
    | cons a as =>
      cases as with
      | nil => rfl
      | cons b bs =>
        simp only [List.length_cons] at hlen
        omega
  · rw [if_neg (by decide : ¬("-" = "+")), if_pos rfl]
    cases args with
    | nil => rfl
    | cons a as =>
      cases as with
      | nil => rfl
      | cons b bs =>
        simp only [List.length_cons] at hlen
        omega

/-- An identifier call head that is none of `+`, `-`, `read` (or `let`)
always panics, whatever the arguments. -/
theorem parseExpression_unknown_head (fuel : Nat) (id : String) (rest : List Token)
    (h1 : id ≠ "+") (h2 : id ≠ "-") (h3 : id ≠ "read") (h4 : id ≠ "let") :
    parseExpression (fuel + 1) (Token.LParen :: Token.Identifier id :: rest) = none := by
  rw [parseExpression_call_unfold fuel id rest h4]
  cases hpa : parseArgs fuel rest with
  | none => rfl
  | some p =>
    obtain ⟨args, rest3⟩ := p
    simp [h1, h2, h3]


/-- Claim C1: for every expression containing no `read` node and no
unrecognized operator, evaluating the expression and evaluating the result
of partially evaluating it yield the same integer,
`interpret(e) == interpret(partially_evaluate(e))` (both computations also
fail together, on the same out-of-bounds `-` node, so the equation is
stated through `Option.bind`); and partially evaluating the (n-ary) parse
of `"(+ 20 1 15 (- 10 3))"` yields the literal `Number 43`. -/
theorem c1_constant_folding :
    (∀ e : UExp, noReadB e = true → recognizedB e = true →
      interpret e = (partiallyEvaluate e).bind interpret) ∧
    (parseUStr "(+ 20 1 15 (- 10 3))").bind partiallyEvaluate = some (UExp.Number 43) := by
  constructor
  · intro e h1 h2
    rcases pe_interp e h1 h2 with ⟨hp, hi⟩ | ⟨n, hp, hi⟩
    · rw [hi, hp]
      rfl
    · rw [hi, hp]
      simp [Option.bind]
      exact (interp_number n).symm
  · have h : parseUStr "(+ 20 1 15 (- 10 3))" =
        some (UExp.Call "+" [UExp.Number 20, UExp.Number 1, UExp.Number 15,
          UExp.Call "-" [UExp.Number 10, UExp.Number 3]]) := rfl
    rw [h]
    simp only [Option.bind]
    simp [partiallyEvaluate, peLoop]

theorem c1_witness :
    noReadB (UExp.Call "+" [UExp.Number 1, UExp.Number 2]) = true ∧
    interpret (UExp.Call "+" [UExp.Number 1, UExp.Number 2]) =
      (partiallyEvaluate (UExp.Call "+" [UExp.Number 1, UExp.Number 2])).bind interpret :=
  ⟨by simp [noReadB, noReadListB],
   c1_constant_folding.1 _ (by simp [noReadB, noReadListB])
     (by simp [recognizedB, recognizedListB])⟩

/-- Claim C2 (code bug): the parser can produce
`Add(Let([x := 2], x), 3)` (from the source
`"(+ (let ((x 2)) x 3) 9)"`, because the `let` branch never consumes the
let-form's closing parenthesis), that expression visualizes to
`"(+ (let ((x 2)) x) 3)"`, and re-parsing that canonical text panics
(`args[1]` out of bounds) instead of reproducing the expression — the
round-trip property fails.  The claim's concrete example without `let`,
`visualize(parse(tokenize("(+ 2 (- 4 2))"))) = "(+ 2 (- 4 2))"`, does
hold. -/
theorem c2_roundtrip_bug :
    parseStr "(+ (let ((x 2)) x 3) 9)" =
      some (Expression.LInt (LInt.Add
        (Expression.LVar (LVar.Let [Binding.mk "x" (Expression.LInt (LInt.Number 2))]
          (Expression.LVar (LVar.Var "x"))))
        (Expression.LInt (LInt.Number 3)))) ∧
    visualizeExpr (Expression.LInt (LInt.Add
        (Expression.LVar (LVar.Let [Binding.mk "x" (Expression.LInt (LInt.Number 2))]
          (Expression.LVar (LVar.Var "x"))))
        (Expression.LInt (LInt.Number 3)))) = "(+ (let ((x 2)) x) 3)" ∧
    parseStr "(+ (let ((x 2)) x) 3)" = none ∧
    (parseStr "(+ 2 (- 4 2))").map visualizeExpr = some "(+ 2 (- 4 2))" := by
  refine ⟨rfl, ?_, rfl, ?_⟩
  · simp only [visualizeExpr, visualizeLInt, visualizeLVar, visualizeBindings]
    rfl
  · have h : parseStr "(+ 2 (- 4 2))" = some (.LInt (.Add (.LInt (.Number 2))
        (.LInt (.Subtract (.LInt (.Number 4)) (.LInt (.Number 2)))))) := rfl
    rw [h, Option.map_some']
    simp only [visualizeExpr, visualizeLInt, visualizeLVar]
    rfl

/-- Claim C3, counterexample: `partially_evaluate` is not total — on
`Call("-", [])` the `args[0]` index panics (modeled as `none`), refuting
"for every input expression ... never fails". -/
theorem c3_counterexample : partiallyEvaluate (UExp.Call "-" []) = none :=
  pe_minus_nil

/-- Claim C3 as amended: `partially_evaluate` performs no input/output (it
is a pure function in this embedding) and never fails on any expression in
which every `-` call has at least one argument; in the worst case it
returns the input unchanged. -/
theorem c3_no_failure : ∀ e : UExp, minusOkB e = true →
    (partiallyEvaluate e).isSome = true :=
  pe_total

theorem c3_witness :
    minusOkB (UExp.Call "+" [UExp.Call "-" [UExp.Number 1], UExp.Call "read" []]) = true ∧
    (partiallyEvaluate (UExp.Call "+" [UExp.Call "-" [UExp.Number 1], UExp.Call "read" []])).isSome = true :=
  ⟨by simp [minusOkB, minusOkListB],
   c3_no_failure _ (by simp [minusOkB, minusOkListB])⟩

/-- Claim C4: partially evaluating `Call("-", [minuend, subtrahends...])`
partially evaluates the minuend and every subtrahend, splits the
subtrahend results into a constant running sum and a residual list kept in
original order, and returns `Number(m - sum)` when the minuend folds to
`Number(m)` and there are no residuals; `Call("-", [Number(m - sum),
residual...])` when the minuend folds but residuals remain; and, when the
minuend stays a `Call`, `Call("-", [minuend, residual..., Number(sum)])`
with the constant subtrahend total appended last. -/
theorem c4_minus_arm : ∀ (m : UExp) (subs rs : List UExp) (M : UExp),
    partiallyEvaluate m = some M →
    subs.mapM partiallyEvaluate = some rs →
    partiallyEvaluate (UExp.Call "-" (m :: subs)) = some (
      match M with
      | .Number n =>
        if (splitConst rs).2.isEmpty then UExp.Number (n - (splitConst rs).1)
        else UExp.Call "-" (UExp.Number (n - (splitConst rs).1) :: (splitConst rs).2)
      | .Call i a =>
        UExp.Call "-" (UExp.Call i a :: ((splitConst rs).2 ++ [UExp.Number (splitConst rs).1]))) := by
  intro m subs rs M hM hrs
  rw [pe_minus, hM]
  dsimp only
  rw [peLoop_of_mapM subs rs hrs 0 []]
  dsimp only
  cases M with
  | Number n => by_cases h : (splitConst rs).2.isEmpty <;> simp [h]
  | Call i a => simp

theorem c4_witness :
    partiallyEvaluate (UExp.Call "f" []) = some (UExp.Call "f" []) ∧
    ([UExp.Number 2, UExp.Call "g" []].mapM partiallyEvaluate =
      some [UExp.Number 2, UExp.Call "g" []]) ∧
    partiallyEvaluate (UExp.Call "-" [UExp.Call "f" [], UExp.Number 2, UExp.Call "g" []]) =
      some (UExp.Call "-" [UExp.Call "f" [], UExp.Call "g" [], UExp.Number 2]) := by
  have h1 : partiallyEvaluate (UExp.Call "f" []) = some (UExp.Call "f" []) :=
    pe_unhandled "f" [] (by decide) (by decide)
  have h2 : [UExp.Number 2, UExp.Call "g" []].mapM partiallyEvaluate =
      some [UExp.Number 2, UExp.Call "g" []] := by
    simp only [List.mapM_cons, List.mapM_nil, pe_number,
      pe_unhandled "g" [] (by decide) (by decide), Option.pure_def,
      Option.some_bind, Option.bind_some]
    rfl
  refine ⟨h1, h2, ?_⟩
  have h3 := c4_minus_arm (UExp.Call "f" []) [UExp.Number 2, UExp.Call "g" []]
    [UExp.Number 2, UExp.Call "g" []] (UExp.Call "f" []) h1 h2
  simpa [splitConst] using h3

/-- Claim C5: `partially_evaluate` applied to `Call("read", args)` or to a
call with any operator other than `+`/`-` returns a structurally identical
node — never folded to a `Number`, arguments untouched; in particular
`partially_evaluate(Call("read", [])) = Call("read", [])`. -/
theorem c5_opaque_calls :
    (∀ args, partiallyEvaluate (UExp.Call "read" args) = some (UExp.Call "read" args)) ∧
    (∀ id args, id ≠ "+" → id ≠ "-" →
      partiallyEvaluate (UExp.Call id args) = some (UExp.Call id args)) ∧
    partiallyEvaluate (UExp.Call "read" []) = some (UExp.Call "read" []) :=
  ⟨fun args => pe_unhandled "read" args (by decide) (by decide),
   fun id args h1 h2 => pe_unhandled id args h1 h2,
   pe_unhandled "read" [] (by decide) (by decide)⟩

theorem c5_witness :
    partiallyEvaluate (UExp.Call "foo" [UExp.Number 1]) =
      some (UExp.Call "foo" [UExp.Number 1]) :=
  c5_opaque_calls.2.1 "foo" [UExp.Number 1] (by decide) (by decide)

/-- Claim C6, counterexample: the parser does not fail on every wrong
argument count or on every missing required `)` — `"(+ 1 2 3)"` parses
successfully to `Add(1, 2)` with the third argument silently discarded,
`"(read 7)"` parses successfully to `Read` with its argument discarded,
and `"(let ((x 2)) x"`, whose tokens run out before the let-form's
grammar-required closing `)`, parses successfully to `Let([x := 2], x)`
because the `let` branch never consumes (or checks for) that `)`. -/
theorem c6_counterexample :
    parseStr "(+ 1 2 3)" =
      some (Expression.LInt (LInt.Add (Expression.LInt (LInt.Number 1))
        (Expression.LInt (LInt.Number 2)))) ∧
    parseStr "(read 7)" = some (Expression.LInt LInt.Read) ∧
    parseStr "(let ((x 2)) x" =
      some (Expression.LVar (LVar.Let [Binding.mk "x" (Expression.LInt (LInt.Number 2))]
        (Expression.LVar (LVar.Var "x")))) :=
  ⟨rfl, rfl, rfl⟩

/-- Claim C6 as amended: the parser fails fatally, producing no partial
AST, on an exhausted token list, an unexpected leading token (`)` or the
end-of-input sentinel), a call head after `(` that is not an identifier,
a missing expected `(` where the let-binding grammar requires one, a
missing identifier at a binding's name position, running out of tokens
inside an argument list or a binding list before the required `)`, an
unrecognized identifier call head, and fewer than two parsed arguments to
`+` or `-` (so `parse(tokenize("(+ 2"))` fails); but extra arguments to
`+`/`-` and all arguments to `read` are silently discarded, and the
closing `)` of a `let` form itself is never consumed or required, so
`"(let ((x 2)) x"` parses successfully. -/
theorem c6_parse_failures :
    (∀ fuel, parseExpression fuel [] = none) ∧
    (∀ fuel rest, parseExpression fuel (Token.RParen :: rest) = none) ∧
    (∀ fuel rest, parseExpression fuel (Token.EndOfFile :: rest) = none) ∧
    (∀ fuel tok rest, (∀ id, tok ≠ Token.Identifier id) →
      parseExpression (fuel + 1) (Token.LParen :: tok :: rest) = none) ∧
    (∀ fuel, parseExpression (fuel + 1) [Token.LParen, Token.Identifier "let"] = none) ∧
    (∀ fuel tok rest, tok ≠ Token.LParen →
      parseExpression (fuel + 1) (Token.LParen :: Token.Identifier "let" :: tok :: rest) = none) ∧
    (∀ fuel, parseBindings fuel [] = none) ∧
    (∀ fuel tok rest, tok ≠ Token.LParen → tok ≠ Token.RParen →
      parseBindings fuel (tok :: rest) = none) ∧
    (∀ fuel tok rest, (∀ id, tok ≠ Token.Identifier id) →
      parseBindings (fuel + 1) (Token.LParen :: tok :: rest) = none) ∧
    (∀ fuel, parseArgs fuel [] = none) ∧
    (∀ fuel id rest args rest3, parseArgs fuel rest = some (args, rest3) →
      args.length < 2 → (id = "+" ∨ id = "-") →
      parseExpression (fuel + 1) (Token.LParen :: Token.Identifier id :: rest) = none) ∧
    (∀ fuel id rest, id ≠ "+" → id ≠ "-" → id ≠ "read" → id ≠ "let" →
      parseExpression (fuel + 1) (Token.LParen :: Token.Identifier id :: rest) = none) ∧
    parseStr "(+ 2" = none ∧
    parseStr "" = none ∧
    parseStr ")" = none ∧
    parseStr "(5 6)" = none ∧
    parseStr "(let x) 5" = none ∧
    parseStr "(let ((2 3)) x)" = none ∧
    parseStr "(+ 1)" = none ∧
    parseStr "(- 1)" = none ∧
    parseStr "(foo 1)" = none ∧
    parseStr "(+ 1 2 3)" = some (Expression.LInt (LInt.Add (Expression.LInt (LInt.Number 1))
      (Expression.LInt (LInt.Number 2)))) ∧
    parseStr "(read 7)" = some (Expression.LInt LInt.Read) ∧
    parseStr "(let ((x 2)) x" =
      some (Expression.LVar (LVar.Let [Binding.mk "x" (Expression.LInt (LInt.Number 2))]
        (Expression.LVar (LVar.Var "x")))) :=
  ⟨parseExpression_nil, parseExpression_rparen, parseExpression_eof,
   parseExpression_bad_head,
   fun fuel => (parseExpression_let_missing_lparen fuel).1,
   fun fuel => (parseExpression_let_missing_lparen fuel).2,
   parseBindings_nil, parseBindings_not_lparen, parseBindings_missing_ident,
   parseArgs_nil, parseExpression_arity_low, parseExpression_unknown_head,
   rfl, rfl, rfl, rfl, rfl, rfl, rfl, rfl, rfl, rfl, rfl, rfl⟩

theorem c6_witness :
    parseExpression 9 [Token.LParen, Token.Number 5, Token.RParen] = none ∧
    parseExpression 9 [Token.LParen, Token.Identifier "+", Token.Number 1, Token.RParen] = none ∧
    parseExpression 9 [Token.LParen, Token.Identifier "foo", Token.Number 1, Token.RParen] = none ∧
    parseBindings 9 [Token.LParen, Token.Number 2, Token.RParen] = none :=
  ⟨c6_parse_failures.2.2.2.1 8 (Token.Number 5) [Token.RParen]
     (fun id h => by cases h),
   c6_parse_failures.2.2.2.2.2.2.2.2.2.2.1 8 "+" [Token.Number 1, Token.RParen]
     [Expression.LInt (LInt.Number 1)] [] rfl (by decide) (Or.inl rfl),
   c6_parse_failures.2.2.2.2.2.2.2.2.2.2.2.1 8 "foo" [Token.Number 1, Token.RParen]
     (by decide) (by decide) (by decide) (by decide),
   c6_parse_failures.2.2.2.2.2.2.2.2.1 8 (Token.Number 2) [Token.RParen]
     (fun id h => by cases h)⟩

/-- Claim C7: `Let(bindings, body)` evaluates each binding's value in
order, writing it into the shared environment immediately (a later binding
sees an earlier one; rebinding overwrites), then evaluates the body;
bindings are never removed on scope exit, so they stay visible for the
rest of the evaluation, including to sibling expressions evaluated after
the `Let` returns; and evaluating the parse of
`"(let ((x 2) (y 3)) (let ((z (+ x y))) (+ z 1)))"` returns `6`. -/
theorem c7_let_semantics :
    evaluateStr "(let ((x 2) (y 3)) (let ((z (+ x y))) (+ z 1)))" = some 6 ∧
    evaluate (Expression.LInt (LInt.Add
      (Expression.LVar (LVar.Let [Binding.mk "x" (Expression.LInt (LInt.Number 2))]
        (Expression.LInt (LInt.Number 0))))
      (Expression.LVar (LVar.Var "x")))) = some 2 ∧
    evaluate (Expression.LVar (LVar.Let
      [Binding.mk "x" (Expression.LInt (LInt.Number 2)),
       Binding.mk "x" (Expression.LInt (LInt.Number 3))]
      (Expression.LVar (LVar.Var "x")))) = some 3 ∧
    (∀ (fuel : Nat) (bs : List Binding) (body : Expression) (env : Env) (r : Int) (env' : Env),
      evalLVar fuel (LVar.Let bs body) env = some (r, env') →
      ∀ b ∈ bs, (env'.lookup b.name).isSome = true) ∧
    (∀ (fuel : Nat) (e : Expression) (env : Env) (n : Int) (env' : Env),
      evalExpr fuel e env = some (n, env') →
      ∀ k, (env.lookup k).isSome = true → (env'.lookup k).isSome = true) := by
  refine ⟨?_, ?_, ?_, let_bindings_persist, fun fuel => (eval_mono fuel).1⟩
  · have h : parseStr "(let ((x 2) (y 3)) (let ((z (+ x y))) (+ z 1)))" =
        some (.LVar (.Let [.mk "x" (.LInt (.Number 2)), .mk "y" (.LInt (.Number 3))]
          (.LVar (.Let [.mk "z" (.LInt (.Add (.LVar (.Var "x")) (.LVar (.Var "y"))))]
            (.LInt (.Add (.LVar (.Var "z")) (.LInt (.Number 1)))))))) := rfl
    rw [evaluateStr, h, Option.some_bind, evaluate]
    have hs : (Expression.LVar (LVar.Let
        [Binding.mk "x" (Expression.LInt (LInt.Number 2)),
         Binding.mk "y" (Expression.LInt (LInt.Number 3))]
        (Expression.LVar (LVar.Let
          [Binding.mk "z" (Expression.LInt (LInt.Add (Expression.LVar (LVar.Var "x"))
            (Expression.LVar (LVar.Var "y"))))]
          (Expression.LInt (LInt.Add (Expression.LVar (LVar.Var "z"))
            (Expression.LInt (LInt.Number 1)))))))).size = 25 := by
      simp only [Expression.size, LInt.size, LVar.size, bindingsSize]
    rw [hs]
    rfl
  · rw [evaluate]
    have hs : (Expression.LInt (LInt.Add
        (Expression.LVar (LVar.Let [Binding.mk "x" (Expression.LInt (LInt.Number 2))]
          (Expression.LInt (LInt.Number 0))))
        (Expression.LVar (LVar.Var "x")))).size = 12 := by
      simp only [Expression.size, LInt.size, LVar.size, bindingsSize]
    rw [hs]
    rfl
  · rw [evaluate]
    have hs : (Expression.LVar (LVar.Let
        [Binding.mk "x" (Expression.LInt (LInt.Number 2)),
         Binding.mk "x" (Expression.LInt (LInt.Number 3))]
        (Expression.LVar (LVar.Var "x")))).size = 11 := by
      simp only [Expression.size, LInt.size, LVar.size, bindingsSize]
    rw [hs]
    rfl

theorem c7_witness :
    evalLVar 5 (LVar.Let [Binding.mk "x" (Expression.LInt (LInt.Number 2))]
      (Expression.LInt (LInt.Number 0))) [] = some (0, [("x", 2)]) ∧
    (List.lookup "x" ([("x", 2)] : Env)).isSome = true :=
  ⟨rfl, c7_let_semantics.2.2.2.1 5 [Binding.mk "x" (Expression.LInt (LInt.Number 2))]
    (Expression.LInt (LInt.Number 0)) [] 0 [("x", 2)] rfl
    (Binding.mk "x" (Expression.LInt (LInt.Number 2))) (by simp)⟩

/-- Claim C8, counterexample: the lexer is not total — on the input
`"2147483648"` (one more than `i32::MAX`) the `number.parse().unwrap()`
call panics, modeled as `none`, refuting "for every input string, the
lexer never fails". -/
theorem c8_counterexample : tokenize "2147483648" = none := rfl

/-- Claim C8 as amended: whenever the lexer succeeds its output ends with
exactly one `EndOfInput` sentinel appended after all other tokens; every
character that is not a digit, letter, one of `+ - * /`, or a parenthesis
is silently dropped and produces no token; and the only way the lexer can
fail is a digit run whose value exceeds `i32::MAX` (2147483647). -/
theorem c8_lexer_behavior :
    (∀ s ts, tokenize s = some ts →
      ∃ ts', ts = ts' ++ [Token.EndOfFile] ∧ Token.EndOfFile ∉ ts') ∧
    (∀ (fuel : Nat) (c : Char) (cs : List Char),
      ¬isDigitC c = true → ¬isIdentC c = true → c ≠ '(' → c ≠ ')' →
      tokenizeAux (fuel + 1) (c :: cs) = tokenizeAux fuel cs) ∧
    (∀ s, tokenize s = none →
      ∃ ds : List Char, ds ≠ [] ∧ (∀ c ∈ ds, isDigitC c = true) ∧
        (∃ pre post, s.data = pre ++ (ds ++ post)) ∧ i32Max < digitsToNat ds) := by
  refine ⟨?_, tokenizeAux_skip, ?_⟩
  · intro s ts h
    rcases Option.map_eq_some'.1 h with ⟨ts', hts', rfl⟩
    exact ⟨ts', rfl, (tokenizeAux_tokens _ _ _ hts').1⟩
  · intro s h
    rw [tokenize] at h
    exact tokenizeAux_none_bigrun (s.data.length + 1) s.data (by omega)
      (Option.map_eq_none'.1 h)

theorem c8_witness :
    tokenize "ab 1" = some [Token.Identifier "ab", Token.Number 1, Token.EndOfFile] ∧
    (∃ ts', [Token.Identifier "ab", Token.Number 1, Token.EndOfFile] =
      ts' ++ [Token.EndOfFile] ∧ Token.EndOfFile ∉ ts') :=
  ⟨rfl, c8_lexer_behavior.1 "ab 1" _ rfl⟩

/-- Claim C9: partial evaluation is idempotent — for every expression
with no `read` node, `partially_evaluate(partially_evaluate(e)) =
partially_evaluate(e)` (stated through `Option.bind`, which also covers
the case where the first pass already fails). -/
theorem c9_idempotent : ∀ e : UExp, noReadB e = true →
    (partiallyEvaluate e).bind partiallyEvaluate = partiallyEvaluate e := by
  intro e _
  cases h : partiallyEvaluate e with
  | none => rfl
  | some e' =>
    simp only [Option.some_bind]
    exact pe_fixpoint e e' h

theorem c9_witness :
    noReadB (UExp.Call "+" [UExp.Number 1, UExp.Call "f" []]) = true ∧
    (partiallyEvaluate (UExp.Call "+" [UExp.Number 1, UExp.Call "f" []])).bind partiallyEvaluate =
      partiallyEvaluate (UExp.Call "+" [UExp.Number 1, UExp.Call "f" []]) :=
  ⟨by simp [noReadB, noReadListB], c9_idempotent _ (by simp [noReadB, noReadListB])⟩

/-- Claim C10: the lexer never produces a `Number` token with a negative
value — numbers are lexed only from maximal digit runs, and a minus sign
preceding digits is lexed as a separate `Identifier("-")` token, so
`tokenize("-5")` yields `Identifier("-")` then `Number(5)`. -/
theorem c10_no_negative_numbers :
    (∀ s ts, tokenize s = some ts → ∀ n : Int, Token.Number n ∈ ts → 0 ≤ n) ∧
    tokenize "-5" = some [Token.Identifier "-", Token.Number 5, Token.EndOfFile] := by
  constructor
  · intro s ts h n hmem
    rcases Option.map_eq_some'.1 h with ⟨ts', hts', rfl⟩
    rcases List.mem_append.1 hmem with hm | hm
    · exact (tokenizeAux_tokens _ _ _ hts').2 n hm
    · simp at hm
  · rfl

theorem c10_witness : (0 : Int) ≤ 7 :=
  c10_no_negative_numbers.1 "7" [Token.Number 7, Token.EndOfFile] rfl 7 (by simp)

end Lol
